import Mathlib

/-!
Verification of the incremental text-to-speech playback engine of
smart-teacher-notepad against its natural-language specification.

The embedding follows the source:
* `src/components/TtsPlayer.tsx` — text segmenter (chunk-splitting effect),
  chunk loader (`loadNextBuffer`), playback controller (`playCurrentChunk`,
  `source.onended`, `handlePause`, `handleResume`, retry button).
* `src/services/gemini.ts` — `generateSpeech` prompt construction.
* `src/services/audioUtils.ts` is imported by the player but absent from the
  sources; the decoder is modelled from the spec (see `decodeAudioData`).

Strings are modelled as `List Char`; JS string length is list length.
-/

namespace TtsSpec

/-! ## Text segmenter (TtsPlayer.tsx, chunk-splitting effect)

The source splits with `const regex = /[^.!?\n]+[.!?\n]+/g;` and
`const sentences = text.match(regex) || [text];`, then greedily groups the
matched units under `CHUNK_SIZE_LIMIT = 200`. -/

/-- Sentence-terminator class of the regex: `.`, `!`, `?`, newline. -/
def isTerm (c : Char) : Bool := c = '.' || c = '!' || c = '?' || c = '\n'

/-- ASCII whitespace class used by `String.prototype.trim` and `\s` (the
source only ever feeds it ASCII-ish markdown text; the Unicode-only extras of
JS `\s` are not modelled). Code point 11 is vertical tab, 12 is form feed. -/
def isWS (c : Char) : Bool :=
  c = ' ' || c = '\t' || c = '\n' || c = '\r' || c.toNat = 11 || c.toNat = 12

/-- State of the left-to-right scanner equivalent to repeatedly taking the
leftmost match of `/[^.!?\n]+[.!?\n]+/g`: `cur` is the reversed text of the
unit being built, `sawTerm` records whether `cur` already contains its
terminator run, `acc` lists the completed units in reverse order. -/
structure MState where
  cur : List Char
  sawTerm : Bool
  acc : List (List Char)
deriving DecidableEq

/-- One character of the scan. A terminator before any non-terminator is
skipped (the regex requires a match to start with a non-terminator); a
non-terminator arriving after a terminator run closes the current unit. -/
def mstep (st : MState) (c : Char) : MState :=
  if isTerm c then
    if st.cur = [] then st
    else { st with cur := c :: st.cur, sawTerm := true }
  else
    if st.sawTerm then { cur := [c], sawTerm := false, acc := st.cur.reverse :: st.acc }
    else { st with cur := c :: st.cur }

/-- Close the scan: a unit in progress that has its terminator run is a final
match; a trailing run without a terminator is dropped. -/
def finishM (st : MState) : List (List Char) :=
  (if st.sawTerm then st.cur.reverse :: st.acc else st.acc).reverse

/-- All matches of `/[^.!?\n]+[.!?\n]+/g` on the text, in order. A trailing
run without a terminator is not a match and is dropped, exactly as
`String.prototype.match` drops it. -/
def sentUnits (t : List Char) : List (List Char) :=
  finishM (t.foldl mstep ⟨[], false, []⟩)

/-- Mirrors `text.match(regex) || [text]`: `match` returns `null` exactly when
there is no match at all, in which case the whole text is the single unit. -/
def unitsOf (t : List Char) : List (List Char) :=
  if sentUnits t = [] then [t] else sentUnits t

/-- Model of `String.prototype.trim`: strip whitespace from both ends. -/
def jsTrim (l : List Char) : List Char :=
  ((l.dropWhile isWS).reverse.dropWhile isWS).reverse

/-- The `CHUNK_SIZE_LIMIT = 200` constant of TtsPlayer.tsx. -/
def CHUNK_SIZE_LIMIT : Nat := 200

/-- One iteration of the grouping loop
`if ((currentText + s).length < CHUNK_SIZE_LIMIT) currentText += s; else { push(currentText.trim()); currentText = s }`,
keeping the pushed buffers untrimmed (the per-chunk `trim` is applied by
`chunkTexts` below, pointwise equivalent to trimming at push time). -/
def gstep (st : List (List Char) × List Char) (s : List Char) :
    List (List Char) × List Char :=
  if (st.2 ++ s).length < CHUNK_SIZE_LIMIT then (st.1, st.2 ++ s)
  else (st.1 ++ [st.2], s)

/-- The grouping pass over the units, including the final
`if (currentText.trim()) push(currentText.trim())` flush, returning the
untrimmed buffer of each emitted chunk. -/
def groupBuffers (us : List (List Char)) : List (List Char) :=
  let p := us.foldl gstep ([], [])
  if jsTrim p.2 = [] then p.1 else p.1 ++ [p.2]

/-- The chunk texts produced for an input text: the trimmed buffers. -/
def chunkTexts (t : List Char) : List (List Char) :=
  (groupBuffers (unitsOf t)).map jsTrim

/-! ## Audio decoder

`src/services/audioUtils.ts` (`decodeBase64`, `decodeAudioData`) is imported
by TtsPlayer.tsx but the file is absent from the sources, so the decoder is
modelled from the spec (§4.2). -/

/-- The decoder's failure value. -/
inductive DecodeError where
  | decodeError
deriving DecidableEq

/-- A decoded audio buffer: sample rate, channel count, normalized samples. -/
structure AudioBuffer where
  sampleRate : Nat
  numberOfChannels : Nat
  samples : List ℚ
deriving DecidableEq

/-- Reinterpret a 16-bit unsigned value as two's-complement signed. -/
def toInt16 (v : Nat) : Int :=
  if v < 32768 then (v : Int) else (v : Int) - 65536

/-- One little-endian 16-bit PCM sample (`b0` low byte, `b1` high byte),
normalized by dividing by 32768. -/
def pcm16 (b0 b1 : Fin 256) : ℚ :=
  ((toInt16 (b0.val + 256 * b1.val) : Int) : ℚ) / 32768

/-- Consecutive byte pairs to normalized samples. -/
def pcmSamples : List (Fin 256) → List ℚ
  | b0 :: b1 :: rest => pcm16 b0 b1 :: pcmSamples rest
  | _ => []

/-- Modelled from the spec: `src/services/audioUtils.ts` is absent from the
sources. Spec §4.2: "interpret bytes as little-endian 16-bit signed PCM,
normalize each sample to floating range [-1.0, 1.0] by dividing by 32768, and
package as a single-channel buffer at the fixed synthesis sample rate
(24000 Hz)", failing "with `DecodeError` if the byte length is not a whole
number of samples". -/
def decodeAudioData (bytes : List (Fin 256)) : Except DecodeError AudioBuffer :=
  if bytes.length % 2 = 0 then .ok ⟨24000, 1, pcmSamples bytes⟩
  else .error .decodeError

/-! ## Speech prompt construction (src/services/gemini.ts, `generateSpeech`)

The source builds
`const cleanText = text.replace(/[#*`_~]/g, '').replace(/\s+/g, ' ').trim();`
and sends `` `${TTS_PREAMBLE}\n\nText: ${cleanText}` `` as the only text part;
the voice goes into `speechConfig`, not into the prompt. -/

/-- The markdown characters removed by `generateSpeech`: `#`, `*`, backtick
(code point 96), `_`, `~`. -/
def mdChar (c : Char) : Bool :=
  c = '#' || c = '*' || c.toNat = 96 || c = '_' || c = '~'

/-- Model of `replace(/\s+/g, ' ')`: each maximal whitespace run becomes one
space. The flag records whether the previous character was inside a run. -/
def collapseWSAux : Bool → List Char → List Char
  | _, [] => []
  | inRun, c :: cs =>
    if isWS c then
      if inRun then collapseWSAux true cs else ' ' :: collapseWSAux true cs
    else c :: collapseWSAux false cs

/-- Collapse every whitespace run to a single space. -/
def collapseWS (l : List Char) : List Char := collapseWSAux false l

/-- The full cleaning pipeline of `generateSpeech`. -/
def cleanText (t : List Char) : List Char :=
  jsTrim (collapseWS (t.filter (fun c => !mdChar c)))

/-- The `TTS_PREAMBLE` constant from src/constants.ts. -/
def ttsPreamble : List Char :=
  "Read the following text naturally and fluently. Maintain smooth flow between English and Bangla. No robotic pauses.".data

/-- The prompt `generateSpeech` sends for a chunk text (voice-independent). -/
def fullPrompt (t : List Char) : List Char :=
  ttsPreamble ++ "\n\nText: ".data ++ cleanText t

/-! ## Playback session model (TtsPlayer.tsx)

The component state (`chunks`, `currentChunkIdx`, `isReadyToPlay`,
`playbackState`, `loadingError`) together with the audio-context state and
the active source ref. The active source stores the `chunks`/`currentChunkIdx`
snapshot captured by the `onended` closure at `createBufferSource` time, since
that closure reads the render-time values, not the live state. -/

/-- Chunk status: `'pending' | 'loading' | 'ready' | 'error'`. -/
inductive Status where
  | pending
  | loading
  | ready
  | error
deriving DecidableEq

/-- One `AudioChunk` of the player. -/
structure Chunk where
  text : List Char
  buffer : Option AudioBuffer
  status : Status
deriving DecidableEq

/-- Audio-context lifecycle state. -/
inductive CtxState where
  | running
  | suspended
  | closed
deriving DecidableEq

/-- Playback state: `'playing' | 'paused' | 'stopped'`. -/
inductive PBState where
  | playing
  | paused
  | stopped
deriving DecidableEq

/-- Snapshot captured by the `onended` closure of the active source. -/
structure Captured where
  chunks : List Chunk
  idx : Nat
deriving DecidableEq

/-- The player's state. `pendingEnded` models a stop-triggered `ended` event
still queued on the event loop: `cleanupAudio` calls `sourceRef.current.stop()`
without clearing `onended`, so stopping a source during a text change leaves
its handler — with its captured snapshot — to fire asynchronously against the
new state. A stopped source's `ended` event fires promptly (well before any
network fetch can complete and create a new source), so at most one such
event is ever queued and an `Option` suffices. -/
structure Session where
  chunks : List Chunk
  currentChunkIdx : Nat
  isReadyToPlay : Bool
  playbackState : PBState
  loadingError : Bool
  ctx : Option CtxState
  source : Option Captured
  pendingEnded : Option Captured
deriving DecidableEq

/-- The initial component state: `useState<AudioChunk[]>([])`, index 0,
`isReadyToPlay = false`, `playbackState = 'stopped'`, no context, no source,
no queued ended event. -/
def initSession : Session :=
  ⟨[], 0, false, .stopped, false, none, none, none⟩

/-- Segmentation result as fresh chunks:
`{ text, buffer: null, status: 'pending' }`. -/
def segmentChunks (t : List Char) : List Chunk :=
  (chunkTexts t).map (fun txt => ⟨txt, none, .pending⟩)

/-- The text-change effect: for non-empty text, replace the chunk sequence,
reset the index, auto-start playback, clear the error flag, stop and drop the
old source, and create a fresh running audio context (`isReadyToPlay` is not
reset — the effect does not touch it). Empty text returns early. The cleanup
stops an active source via `stop()` with its `onended` handler still
attached, so that handler — closed over its captured snapshot — is queued and
will fire later against the new state (`pendingEnded`). -/
def textArrive (s : Session) (t : List Char) : Session :=
  if t = [] then s
  else { s with
    chunks := segmentChunks t
    currentChunkIdx := 0
    playbackState := .playing
    loadingError := false
    ctx := some .running
    source := none
    pendingEnded := match s.source with
      | some cap => some cap
      | none => s.pendingEnded }

/-- Replace the chunk at one index, like
`prev.map((c, i) => i === target ? f(c) : c)` (out-of-range index: no-op). -/
def updAt : List Chunk → Nat → (Chunk → Chunk) → List Chunk
  | [], _, _ => []
  | c :: cs, 0, f => f c :: cs
  | c :: cs, i + 1, f => c :: updAt cs i f

/-- Helper for `findTarget`, carrying the position of the list head. -/
def findTargetAux : List Chunk → Nat → Nat → Option Nat
  | [], _, _ => none
  | c :: cs, i, cur =>
    if cur ≤ i ∧ c.status = .pending then some i else findTargetAux cs (i + 1) cur

/-- The loader's scan
`chunks.findIndex((c, i) => i >= currentChunkIdx && c.status === 'pending')`
(`none` for JavaScript's `-1`). -/
def findTarget (chunks : List Chunk) (cur : Nat) : Option Nat :=
  findTargetAux chunks 0 cur

/-- The synchronous head of `loadNextBuffer`: find the first pending chunk at
or after the current index and mark it `'loading'` before awaiting the fetch.
Every `chunks` or `currentChunkIdx` update re-runs this effect, so several
invocations can pass this point while earlier fetches are still in flight. -/
def scanMark (s : Session) : Session :=
  match findTarget s.chunks s.currentChunkIdx with
  | none => s
  | some i => { s with chunks := updAt s.chunks i (fun c => { c with status := .loading }) }

/-- The continuation of `loadNextBuffer` after the awaited fetch/decode for
chunk `i` resolves. `capIdx` is the `currentChunkIdx` captured by the effect
closure. On success, the buffer is stored only while the context is not
closed, and `isReadyToPlay` is signalled when `i` is the captured index; on
failure the chunk is marked `'error'` and `loadingError` is raised when `i`
is the captured index (the catch block does not consult the context). -/
def loadFinish (s : Session) (i capIdx : Nat) (res : Option AudioBuffer) : Session :=
  match res with
  | some buf =>
    match s.ctx with
    | some .running | some .suspended =>
      { s with
        chunks := updAt s.chunks i (fun c => { c with buffer := some buf, status := .ready })
        isReadyToPlay := if i = capIdx then true else s.isReadyToPlay }
    | _ => s
  | none =>
    { s with
      chunks := updAt s.chunks i (fun c => { c with status := .error })
      loadingError := if i = capIdx then true else s.loadingError }

/-- Model of `playCurrentChunk`: with no context it returns; a suspended context is
resumed (possibly failing) and nothing else happens; otherwise, if the current
chunk exists and has a buffer and no source is already running, a new source
is created, capturing the render-time `chunks`/`currentChunkIdx` in its
`onended` closure. -/
def playStep (s : Session) (resumeOk : Bool) : Session :=
  match s.ctx with
  | none => s
  | some .suspended => if resumeOk then { s with ctx := some .running } else s
  | some _ =>
    match s.chunks.get? s.currentChunkIdx with
    | none => s
    | some c =>
      match c.buffer with
      | none => s
      | some _ =>
        if s.source.isSome then s
        else { s with source := some ⟨s.chunks, s.currentChunkIdx⟩ }

/-- The `source.onended` handler, firing on the natural end of the chunk's
audio with the snapshot `cap` captured at source creation: clear the source;
if the captured index is below the captured last index, increment the live
index and set `isReadyToPlay` from the captured (not live) next chunk's
buffer; otherwise stop and reset the index to 0. The bound check is the
JavaScript `currentChunkIdx < chunks.length - 1` over integers. -/
def chunkEnd (s : Session) (cap : Captured) : Session :=
  if (cap.idx : Int) < (cap.chunks.length : Int) - 1 then
    { s with
      source := none
      currentChunkIdx := s.currentChunkIdx + 1
      isReadyToPlay := ((cap.chunks.get? (cap.idx + 1)).bind Chunk.buffer).isSome }
  else { s with source := none, playbackState := .stopped, currentChunkIdx := 0 }

/-- The queued stop-triggered `ended` event firing: the handler body is the
same `onended` code as `chunkEnd`, run with the snapshot captured when the
now-stopped source was created, against whatever state the session has moved
to in the meantime; firing consumes the queued event. In particular
`setCurrentChunkIdx(prev => prev + 1)` bumps the already-reset live index
while the guard consulted the old snapshot's chunk count. -/
def staleEnd (s : Session) (cap : Captured) : Session :=
  { chunkEnd s cap with pendingEnded := none }

/-- Model of `handlePause`: only a running context is suspended, and `playbackState`
becomes `'paused'` only after the suspension succeeds; a missing, suspended,
or closed context, or a failing `suspend()`, leaves the state untouched. -/
def handlePause (s : Session) (suspendOk : Bool) : Session :=
  if s.ctx = some .running then
    if suspendOk then { s with ctx := some .suspended, playbackState := .paused }
    else s
  else s

/-- Model of `handleResume`: a suspended context is resumed and `playbackState` set to
`'playing'` on success (a failing `resume()` changes nothing); any other
context state just sets `playbackState` to `'playing'`. -/
def handleResume (s : Session) (resumeOk : Bool) : Session :=
  if s.ctx = some .suspended then
    if resumeOk then { s with ctx := some .running, playbackState := .playing }
    else s
  else { s with playbackState := .playing }

/-- The retry button's `onClick={() => setPlaybackState('playing')}`: it only
changes the playback state; no chunk status is touched. -/
def retryClick (s : Session) : Session :=
  { s with playbackState := .playing }

/-- The events of one playback session. `play` is guarded by the effect
condition `playbackState === 'playing' && isReadyToPlay`; `ended` is the
natural end of the active source while playing; `stale` is the asynchronous
firing of the `ended` event queued when a text change stopped the previous
source with its handler still attached. -/
inductive Step : Session → Session → Prop where
  | text (s : Session) (t : List Char) : Step s (textArrive s t)
  | load (s : Session) : Step s (scanMark s)
  | finish (s : Session) (i capIdx : Nat) (res : Option AudioBuffer) :
      Step s (loadFinish s i capIdx res)
  | play (s : Session) (resumeOk : Bool) (hp : s.playbackState = .playing)
      (hr : s.isReadyToPlay = true) : Step s (playStep s resumeOk)
  | ended (s : Session) (cap : Captured) (h : s.source = some cap)
      (hp : s.playbackState = .playing) : Step s (chunkEnd s cap)
  | stale (s : Session) (cap : Captured) (h : s.pendingEnded = some cap) :
      Step s (staleEnd s cap)
  | pause (s : Session) (ok : Bool) : Step s (handlePause s ok)
  | resume (s : Session) (ok : Bool) : Step s (handleResume s ok)
  | retry (s : Session) : Step s (retryClick s)

/-- States reachable from the freshly mounted component. -/
inductive Reachable : Session → Prop where
  | init : Reachable initSession
  | step {s s' : Session} : Reachable s → Step s s' → Reachable s'

/-- Number of chunks currently in `'loading'` status. -/
def countLoading (chunks : List Chunk) : Nat :=
  (chunks.filter (fun c => c.status = .loading)).length

/-! ## Auxiliary invariants and concrete example states -/

/-- Invariant of the regex scan: the processed prefix decomposes into a run of
skipped leading terminators, the completed units, and the unit in progress;
while no terminator has been seen the unit in progress is terminator-free;
before the first non-terminator nothing has accumulated. -/
def MInv (processed : List Char) (st : MState) : Prop :=
  (∃ lead, (∀ c ∈ lead, isTerm c = true) ∧
      processed = lead ++ (st.acc.reverse).flatten ++ st.cur.reverse) ∧
  (st.sawTerm = false → ∀ c ∈ st.cur, isTerm c = false) ∧
  (st.cur = [] → st.acc = [] ∧ st.sawTerm = false)

/-- The claimed session invariant, strengthened for induction: the index is
in range while chunks exist, and an active source's captured snapshot agrees
with the live index and chunk count. Every step except the firing of a queued
stale `ended` event preserves it; the stale firing violates it (see C7). -/
def InvS (s : Session) : Prop :=
  (s.chunks ≠ [] → s.currentChunkIdx < s.chunks.length) ∧
  (∀ cap, s.source = some cap →
    cap.idx = s.currentChunkIdx ∧ cap.chunks.length = s.chunks.length ∧ s.chunks ≠ [])

/-- The weaker invariant that does hold on all reachable states: the index
never exceeds the chunk count (it can equal it after a stale `ended` firing);
a queued stale event coexists only with a strictly in-range index, and an
active source's snapshot agrees with the live state at an in-range index. -/
def InvW (s : Session) : Prop :=
  (s.chunks ≠ [] → s.currentChunkIdx ≤ s.chunks.length) ∧
  (∀ cap, s.pendingEnded = some cap → s.chunks ≠ [] →
    s.currentChunkIdx < s.chunks.length) ∧
  (∀ cap, s.source = some cap →
    cap.idx = s.currentChunkIdx ∧ cap.chunks.length = s.chunks.length ∧
    s.currentChunkIdx < s.chunks.length)

/-- A two-sentence text whose sentences do not fit in one 200-character chunk:
150 letters and a period, twice. -/
def twoSentText : List Char :=
  List.replicate 150 'a' ++ ['.'] ++ List.replicate 150 'b' ++ ['.']

/-- Session state right after the two-sentence text arrives. -/
def sA : Session := textArrive initSession twoSentText

/-- State after the first loader invocation marks chunk 0 `'loading'`. -/
def sB : Session := scanMark sA

/-- State after the loader effect, re-triggered by the `setChunks` that marked
chunk 0, runs again while the first fetch is still in flight and marks
chunk 1 `'loading'`. -/
def sC : Session := scanMark sB

/-- A decoded buffer used as a placeholder value in session traces. -/
def bufA : AudioBuffer := ⟨24000, 1, []⟩

/-- Chunk 0's fetch resolves: chunk 0 becomes `'ready'`, `isReadyToPlay` set. -/
def s6c : Session := loadFinish sB 0 0 (some bufA)

/-- Playback of chunk 0 starts; the new source's `onended` closure captures
the render-time chunk array, in which chunk 1 has no buffer yet. -/
def s6d : Session := playStep s6c true

/-- The loader marks chunk 1 `'loading'` during chunk 0's playback. -/
def s6e : Session := scanMark s6d

/-- Chunk 1's fetch resolves during chunk 0's playback: chunk 1 is `'ready'`
with a buffer in the live state, but not in the captured snapshot. -/
def s6f : Session := loadFinish s6e 1 0 (some bufA)

/-- The snapshot captured when chunk 0's source was created. -/
def cap6 : Captured := ⟨s6c.chunks, 0⟩

/-- Chunk 0's audio ends naturally; `onended` runs with the stale snapshot. -/
def s6g : Session := chunkEnd s6f cap6


/-- A one-sentence text yielding a single chunk. -/
def hiDot : List Char := "Hi.".data

/-- Session right after the one-sentence text arrives. -/
def s4a : Session := textArrive initSession hiDot

/-- The loader marks the single chunk `'loading'`. -/
def s4b : Session := scanMark s4a

/-- The fetch fails: the single chunk is `'error'`, `loadingError` raised, so
the UI shows the retry button. -/
def s4c : Session := loadFinish s4b 0 0 none

/-- The user clicks the retry button (`setPlaybackState('playing')`). -/
def s4d : Session := retryClick s4c

/-- While chunk 0 of the two-sentence session is playing, the user asks for a
different, one-sentence text: cleanup stops the source, queueing its `ended`
event, and the session is rebuilt around the single fresh chunk. -/
def s7w : Session := textArrive s6d hiDot

/-- The queued `ended` event of the stopped source fires against the fresh
one-chunk session: the guard consults the old two-chunk snapshot (`0 < 2 - 1`
passes) and bumps the reset index from 0 to 1 — equal to the new chunk count. -/
def s7x : Session := staleEnd s7w cap6

/-- A single sentence of 401 letters and a period: one 402-character unit. -/
def longUnitText : List Char := List.replicate 401 'a' ++ ['.']

/-- The spec's §8 scenario text: 450 characters with sentence terminators at
positions 180 and 360 and no other terminator. -/
def scenarioText : List Char :=
  List.replicate 179 'a' ++ ['.'] ++ List.replicate 179 'b' ++ ['.'] ++
    List.replicate 90 'c'

/-- A playing session with a running context, used to witness `handlePause`. -/
def sPauseW : Session :=
  ⟨[⟨hiDot, some bufA, .ready⟩], 0, true, .playing, false, some .running, none, none⟩

/-! ## Theorems -/

/-! ### Whitespace and trimming lemmas -/

theorem dw_head_not (p : Char → Bool) (l : List Char) (c : Char)
    (h : (l.dropWhile p).head? = some c) : p c = false := by
  simpa [h] using List.head?_dropWhile_not p l

theorem jsTrim_getLast_not (l : List Char) (c : Char)
    (h : (jsTrim l).getLast? = some c) : isWS c = false := by
  unfold jsTrim at h
  rw [List.getLast?_reverse] at h
  exact dw_head_not _ _ c h

theorem jsTrim_head_not (l : List Char) (c : Char)
    (h : (jsTrim l).head? = some c) : isWS c = false := by
  unfold jsTrim at h
  rw [List.head?_reverse] at h
  obtain ⟨t, ht⟩ := List.dropWhile_suffix (l := (l.dropWhile isWS).reverse) isWS
  have hY : ((l.dropWhile isWS).reverse).getLast? = some c := by
    rw [← ht, List.getLast?_append, h]
    rfl
  rw [List.getLast?_reverse] at hY
  exact dw_head_not _ _ c hY

theorem jsTrim_subset (l : List Char) : ∀ c ∈ jsTrim l, c ∈ l := by
  intro c hc
  unfold jsTrim at hc
  rw [List.mem_reverse] at hc
  have h1 := (List.dropWhile_sublist (l := (l.dropWhile isWS).reverse) isWS).subset hc
  rw [List.mem_reverse] at h1
  exact (List.dropWhile_sublist isWS).subset h1

theorem jsTrim_length_le (l : List Char) : (jsTrim l).length ≤ l.length := by
  unfold jsTrim
  rw [List.length_reverse]
  calc ((l.dropWhile isWS).reverse.dropWhile isWS).length
      ≤ (l.dropWhile isWS).reverse.length := (List.dropWhile_sublist isWS).length_le
    _ = (l.dropWhile isWS).length := List.length_reverse _
    _ ≤ l.length := (List.dropWhile_sublist isWS).length_le

theorem jsTrim_eq_nil_all_ws (l : List Char) (h : jsTrim l = []) :
    ∀ c ∈ l, isWS c = true := by
  unfold jsTrim at h
  rw [List.reverse_eq_nil_iff] at h
  rw [List.dropWhile_eq_nil_iff] at h
  intro c hc
  rcases List.mem_append.mp ((List.takeWhile_append_dropWhile isWS l) ▸ hc) with h1 | h1
  · exact List.mem_takeWhile_imp h1
  · exact h c (List.mem_reverse.mpr h1)

theorem jsTrim_of_no_ws (l : List Char) (h : ∀ c ∈ l, isWS c = false) :
    jsTrim l = l := by
  have hdw : ∀ (m : List Char), (∀ c ∈ m, isWS c = false) → m.dropWhile isWS = m := by
    intro m hm
    cases m with
    | nil => rfl
    | cons a as => exact List.dropWhile_cons_of_neg (by simp [hm a (List.mem_cons_self a as)])
  unfold jsTrim
  rw [hdw l h, hdw _ (fun c hc => h c (List.mem_reverse.mp hc)), List.reverse_reverse]

/-! ### Whitespace-collapsing lemmas (gemini.ts `replace(/\s+/g, ' ')`) -/

theorem collapseWSAux_head_not (l : List Char) :
    ∀ c, (collapseWSAux true l).head? = some c → isWS c = false := by
  induction l with
  | nil => intro c h; simp [collapseWSAux] at h
  | cons a as ih =>
    intro c h
    by_cases hw : isWS a
    · rw [show collapseWSAux true (a :: as) = collapseWSAux true as from by
        simp [collapseWSAux, hw]] at h
      exact ih c h
    · rw [show collapseWSAux true (a :: as) = a :: collapseWSAux false as from by
        simp [collapseWSAux, hw]] at h
      simp only [List.head?_cons, Option.some.injEq] at h
      subst h
      simpa using hw

theorem collapseWSAux_chain (l : List Char) :
    ∀ b : Bool, List.Chain' (fun a c => isWS a = false ∨ isWS c = false)
      (collapseWSAux b l) := by
  induction l with
  | nil => intro b; simp [collapseWSAux]
  | cons a as ih =>
    intro b
    by_cases hw : isWS a
    · cases b with
      | true =>
        rw [show collapseWSAux true (a :: as) = collapseWSAux true as from by
          simp [collapseWSAux, hw]]
        exact ih true
      | false =>
        rw [show collapseWSAux false (a :: as) = ' ' :: collapseWSAux true as from by
          simp [collapseWSAux, hw]]
        rw [List.chain'_cons']
        exact ⟨fun y hy => Or.inr (collapseWSAux_head_not as y hy), ih true⟩
    · rw [show collapseWSAux b (a :: as) = a :: collapseWSAux false as from by
        simp [collapseWSAux, hw]]
      rw [List.chain'_cons']
      exact ⟨fun y _ => Or.inl (by simpa using hw), ih false⟩

theorem collapseWSAux_mem (l : List Char) :
    ∀ (b : Bool) (c : Char), c ∈ collapseWSAux b l → c = ' ' ∨ c ∈ l := by
  induction l with
  | nil => intro b c h; simp [collapseWSAux] at h
  | cons a as ih =>
    intro b c h
    by_cases hw : isWS a
    · have hmem : c ∈ collapseWSAux true as ∨ c = ' ' := by
        cases b with
        | true =>
          rw [show collapseWSAux true (a :: as) = collapseWSAux true as from by
            simp [collapseWSAux, hw]] at h
          exact Or.inl h
        | false =>
          rw [show collapseWSAux false (a :: as) = ' ' :: collapseWSAux true as from by
            simp [collapseWSAux, hw]] at h
          rcases List.mem_cons.mp h with h1 | h1
          · exact Or.inr h1
          · exact Or.inl h1
      rcases hmem with h1 | h1
      · rcases ih true c h1 with h2 | h2
        · exact Or.inl h2
        · exact Or.inr (List.mem_cons_of_mem _ h2)
      · exact Or.inl h1
    · rw [show collapseWSAux b (a :: as) = a :: collapseWSAux false as from by
        simp [collapseWSAux, hw]] at h
      rcases List.mem_cons.mp h with h1 | h1
      · exact Or.inr (h1 ▸ List.mem_cons_self a as)
      · rcases ih false c h1 with h2 | h2
        · exact Or.inl h2
        · exact Or.inr (List.mem_cons_of_mem _ h2)

theorem chainWS_rev (m : List Char)
    (h : List.Chain' (fun a c => isWS a = false ∨ isWS c = false) m) :
    List.Chain' (fun a c => isWS a = false ∨ isWS c = false) m.reverse := by
  rw [List.chain'_reverse]
  exact List.Chain'.imp (fun a b hab => hab.symm) h

theorem jsTrim_chain (l : List Char)
    (h : List.Chain' (fun a c => isWS a = false ∨ isWS c = false) l) :
    List.Chain' (fun a c => isWS a = false ∨ isWS c = false) (jsTrim l) := by
  unfold jsTrim
  exact chainWS_rev _ (List.Chain'.suffix
    (chainWS_rev _ (List.Chain'.suffix h (List.dropWhile_suffix isWS)))
    (List.dropWhile_suffix isWS))

/-- C10: for every chunk text, `generateSpeech` sends the fixed TTS preamble
followed by `"\n\nText: "` and the cleaned text — the raw chunk text is not
used: every occurrence of `#`, `*`, backtick, `_`, `~` is removed, every
whitespace run is collapsed (no two adjacent whitespace characters remain),
and the result carries no leading or trailing whitespace. The prompt is
voice-independent: the voice only enters `speechConfig`. -/
theorem c10_prompt_clean (t : List Char) :
    fullPrompt t = ttsPreamble ++ "\n\nText: ".data ++ cleanText t ∧
    (∀ c ∈ cleanText t, mdChar c = false) ∧
    List.Chain' (fun a c => isWS a = false ∨ isWS c = false) (cleanText t) ∧
    (∀ c, (cleanText t).head? = some c → isWS c = false) ∧
    (∀ c, (cleanText t).getLast? = some c → isWS c = false) := by
  refine ⟨rfl, ?_, ?_, jsTrim_head_not _, jsTrim_getLast_not _⟩
  · intro c hc
    have h1 := jsTrim_subset _ c hc
    rcases collapseWSAux_mem _ false c h1 with h2 | h2
    · subst h2; rfl
    · have h3 := List.of_mem_filter h2
      simpa using h3
  · exact jsTrim_chain _ (collapseWSAux_chain _ false)

/-- Witness for C10 at the concrete chunk text `"# Hi   *there*\n"`. -/
theorem c10_prompt_clean_witness :
    ('H' ∈ cleanText "# Hi   *there*\n".data) ∧ mdChar 'H' = false ∧
    fullPrompt "# Hi   *there*\n".data =
      ttsPreamble ++ "\n\nText: ".data ++ cleanText "# Hi   *there*\n".data :=
  ⟨by decide, (c10_prompt_clean "# Hi   *there*\n".data).2.1 'H' (by decide),
    (c10_prompt_clean "# Hi   *there*\n".data).1⟩

/-! ### Decoder theorems -/

theorem pcmSamples_length : ∀ l : List (Fin 256), (pcmSamples l).length = l.length / 2
  | [] => by simp [pcmSamples]
  | [_] => by simp [pcmSamples]
  | _ :: _ :: rest => by
    simp only [pcmSamples, List.length_cons]
    rw [pcmSamples_length rest]
    omega

theorem toInt16_bounds (v : Nat) (hv : v < 65536) :
    -32768 ≤ toInt16 v ∧ toInt16 v ≤ 32767 := by
  unfold toInt16
  split <;> omega

theorem pcm16_bounds (b0 b1 : Fin 256) : -1 ≤ pcm16 b0 b1 ∧ pcm16 b0 b1 ≤ 1 := by
  have hv : b0.val + 256 * b1.val < 65536 := by
    have h0 := b0.isLt
    have h1 := b1.isLt
    omega
  obtain ⟨h1, h2⟩ := toInt16_bounds _ hv
  unfold pcm16
  constructor
  · rw [le_div_iff₀ (by norm_num : (0 : ℚ) < 32768)]
    calc (-1 : ℚ) * 32768 = ((-32768 : Int) : ℚ) := by norm_num
      _ ≤ _ := by exact_mod_cast h1
  · rw [div_le_one (by norm_num : (0 : ℚ) < 32768)]
    calc ((toInt16 (b0.val + 256 * b1.val) : Int) : ℚ)
        ≤ ((32767 : Int) : ℚ) := by exact_mod_cast h2
      _ ≤ 32768 := by norm_num

theorem pcmSamples_bounds : ∀ (l : List (Fin 256)) (q : ℚ),
    q ∈ pcmSamples l → -1 ≤ q ∧ q ≤ 1
  | [], q => by simp [pcmSamples]
  | [_], q => by simp [pcmSamples]
  | b0 :: b1 :: rest, q => by
    intro hq
    simp only [pcmSamples, List.mem_cons] at hq
    rcases hq with h | h
    · exact h ▸ pcm16_bounds b0 b1
    · exact pcmSamples_bounds rest q h

/-- C8 (decoder modelled from the spec, audioUtils.ts being absent from the
sources): decoding interprets the bytes as little-endian signed 16-bit PCM
normalized by 32768 into `[-1, 1]` in a single-channel 24000 Hz buffer; an
even-length byte array yields exactly `length / 2` samples and an odd-length
byte array fails with `DecodeError`. -/
theorem c8_decoder (bytes : List (Fin 256)) :
    (bytes.length % 2 = 0 →
      decodeAudioData bytes = .ok ⟨24000, 1, pcmSamples bytes⟩ ∧
      (pcmSamples bytes).length = bytes.length / 2 ∧
      ∀ q ∈ pcmSamples bytes, -1 ≤ q ∧ q ≤ 1) ∧
    (bytes.length % 2 ≠ 0 → decodeAudioData bytes = .error .decodeError) := by
  constructor
  · intro h
    exact ⟨by simp [decodeAudioData, h], pcmSamples_length bytes,
      fun q hq => pcmSamples_bounds bytes q hq⟩
  · intro h
    simp [decodeAudioData, h]

/-- Witness for C8: the byte pair `0xFF, 0x7F` decodes to the single sample
`32767 / 32768` (the spec's round-trip example), and the odd-length array
`[0x00]` fails with `DecodeError`. -/
theorem c8_decoder_witness :
    decodeAudioData [(255 : Fin 256), (127 : Fin 256)] =
      .ok ⟨24000, 1, pcmSamples [(255 : Fin 256), (127 : Fin 256)]⟩ ∧
    pcmSamples [(255 : Fin 256), (127 : Fin 256)] = [(32767 : ℚ) / 32768] ∧
    (pcmSamples [(255 : Fin 256), (127 : Fin 256)]).length = 1 ∧
    decodeAudioData [(0 : Fin 256)] = .error .decodeError :=
  ⟨((c8_decoder [255, 127]).1 (by decide)).1,
    by rfl,
    by simpa using ((c8_decoder [255, 127]).1 (by decide)).2.1,
    (c8_decoder [0]).2 (by decide)⟩

/-! ### Pause atomicity -/

/-- C9: `handlePause` sets `playbackState` to `Paused` exactly when the audio
context is running and the suspension succeeds; with an absent, suspended or
closed context, or a failing `suspend()`, the whole session state — playback
state, current index, chunk sequence and active source — is unchanged. -/
theorem c9_pause_atomic (s : Session) (ok : Bool) :
    (s.ctx = some CtxState.running ∧ ok = true →
      handlePause s ok =
        { s with ctx := some CtxState.suspended, playbackState := PBState.paused }) ∧
    (s.ctx ≠ some CtxState.running ∨ ok = false → handlePause s ok = s) := by
  constructor
  · rintro ⟨h1, h2⟩
    simp [handlePause, h1, h2]
  · rintro (h1 | h2)
    · simp [handlePause, h1]
    · subst h2
      by_cases h : s.ctx = some CtxState.running <;> simp [handlePause, h]

/-- Witness for C9: on a playing session with a running context, a successful
pause suspends and marks paused; a failing one changes nothing. -/
theorem c9_pause_atomic_witness :
    handlePause sPauseW true =
      { sPauseW with ctx := some CtxState.suspended, playbackState := PBState.paused } ∧
    handlePause sPauseW false = sPauseW :=
  ⟨(c9_pause_atomic sPauseW true).1 ⟨rfl, rfl⟩,
    (c9_pause_atomic sPauseW false).2 (Or.inr rfl)⟩

/-! ### Segmenter: invariant of the regex scan -/

theorem minv_mstep (p : List Char) (st : MState) (c : Char) (h : MInv p st) :
    MInv (p ++ [c]) (mstep st c) := by
  obtain ⟨⟨lead, hlead, hdec⟩, hnt, hmt⟩ := h
  by_cases hc : isTerm c
  · by_cases hcur : st.cur = []
    · rw [show mstep st c = st from by simp [mstep, hc, hcur]]
      obtain ⟨hacc, hst⟩ := hmt hcur
      refine ⟨⟨lead ++ [c], ?_, ?_⟩, hnt, hmt⟩
      · intro d hd
        rcases List.mem_append.mp hd with h1 | h1
        · exact hlead d h1
        · rw [List.mem_singleton.mp h1]; exact hc
      · rw [hdec, hacc, hcur]; simp
    · rw [show mstep st c = { st with cur := c :: st.cur, sawTerm := true } from by
        simp [mstep, hc, hcur]]
      refine ⟨⟨lead, hlead, ?_⟩, ?_, ?_⟩
      · simp [hdec, List.reverse_cons, List.append_assoc]
      · intro h'; simp at h'
      · intro h'; simp at h'
  · by_cases hsaw : st.sawTerm
    · rw [show mstep st c = ⟨[c], false, st.cur.reverse :: st.acc⟩ from by
        simp [mstep, hc, hsaw]]
      refine ⟨⟨lead, hlead, ?_⟩, ?_, ?_⟩
      · simp only [hdec, List.reverse_cons, List.flatten_append, List.flatten_cons,
          List.flatten_nil, List.reverse_reverse, List.append_nil, List.append_assoc,
          List.reverse_singleton, List.flatten]
        simp [List.append_assoc]
      · intro _ d hd
        rw [List.mem_singleton.mp hd]
        simpa using hc
      · intro h'; simp at h'
    · have hsawf : st.sawTerm = false := by simpa using hsaw
      rw [show mstep st c = { st with cur := c :: st.cur } from by
        simp [mstep, hc, hsawf]]
      refine ⟨⟨lead, hlead, ?_⟩, ?_, ?_⟩
      · simp [hdec, List.reverse_cons, List.append_assoc]
      · intro _ d hd
        rcases List.mem_cons.mp hd with h1 | h1
        · rw [h1]; simpa using hc
        · exact hnt hsawf d h1
      · intro h'; simp at h'

theorem minv_foldl (l : List Char) : ∀ (p : List Char) (st : MState),
    MInv p st → MInv (p ++ l) (l.foldl mstep st) := by
  induction l with
  | nil => intro p st h; simpa using h
  | cons c cs ih =>
    intro p st h
    have h2 := ih (p ++ [c]) (mstep st c) (minv_mstep p st c h)
    simpa [List.append_assoc] using h2

theorem sentUnits_decomp (t : List Char) :
    ∃ lead tail, (∀ c ∈ lead, isTerm c = true) ∧ (∀ c ∈ tail, isTerm c = false) ∧
      t = lead ++ (sentUnits t).flatten ++ tail := by
  have h0 : MInv [] ⟨[], false, []⟩ := ⟨⟨[], by simp, by simp⟩, by simp, by simp⟩
  have h := minv_foldl t [] ⟨[], false, []⟩ h0
  rw [List.nil_append] at h
  have hsu : sentUnits t = finishM (t.foldl mstep ⟨[], false, []⟩) := rfl
  set st := t.foldl mstep ⟨[], false, []⟩ with hst
  obtain ⟨⟨lead, hlead, hdec⟩, hnt, _⟩ := h
  by_cases hsaw : st.sawTerm
  · refine ⟨lead, [], hlead, by simp, ?_⟩
    rw [hsu, show finishM st = (st.cur.reverse :: st.acc).reverse from by
      simp [finishM, hsaw]]
    rw [hdec]
    simp [List.reverse_cons, List.flatten_append, List.append_assoc]
  · have hsawf : st.sawTerm = false := by simpa using hsaw
    refine ⟨lead, st.cur.reverse, hlead, ?_, ?_⟩
    · intro c hci
      exact hnt hsawf c (List.mem_reverse.mp hci)
    · rw [hsu, show finishM st = st.acc.reverse from by simp [finishM, hsawf]]
      exact hdec

/-! ### Segmenter: grouping lemmas -/

theorem gfold_flatten (us : List (List Char)) : ∀ (acc : List (List Char)) (cur : List Char),
    ((us.foldl gstep (acc, cur)).1).flatten ++ (us.foldl gstep (acc, cur)).2 =
      acc.flatten ++ (cur ++ us.flatten) := by
  induction us with
  | nil => intro acc cur; simp
  | cons u us ih =>
    intro acc cur
    rw [List.foldl_cons]
    by_cases h : cur.length + u.length < CHUNK_SIZE_LIMIT
    · rw [show gstep (acc, cur) u = (acc, cur ++ u) from by simp [gstep, h]]
      rw [ih]
      simp [List.append_assoc]
    · rw [show gstep (acc, cur) u = (acc ++ [cur], u) from by simp [gstep, h]]
      rw [ih]
      simp [List.flatten_append, List.append_assoc]

theorem groupBuffers_flatten (us : List (List Char)) :
    ∃ ws, (∀ c ∈ ws, isWS c = true) ∧
      (groupBuffers us).flatten ++ ws = us.flatten := by
  unfold groupBuffers
  by_cases h : jsTrim (us.foldl gstep ([], [])).2 = []
  · rw [if_pos h]
    refine ⟨(us.foldl gstep ([], [])).2, jsTrim_eq_nil_all_ws _ h, ?_⟩
    simpa using gfold_flatten us [] []
  · rw [if_neg h]
    refine ⟨[], by simp, ?_⟩
    have hg := gfold_flatten us [] []
    simp only [List.flatten_nil, List.nil_append] at hg
    simpa [List.flatten_append, List.append_assoc] using hg

/-- C2 (amended): the greedy grouping stage drops and duplicates nothing up to
a possibly-discarded whitespace-only final buffer — concatenating the emitted
chunk buffers reconstructs the concatenation of the units — and the input
decomposes as skipped leading terminators, the concatenation of the matched
units, and a dropped trailing portion that contains no terminator; a text in
which the regex finds no complete terminator-ended unit is treated as one
unit. (The original claim fails: the trailing portion with no terminator is
dropped by `text.match`, not flushed; see the counterexample.) -/
theorem c2_segmenter (t : List Char) :
    (∃ lead tail, (∀ c ∈ lead, isTerm c = true) ∧ (∀ c ∈ tail, isTerm c = false) ∧
      t = lead ++ (sentUnits t).flatten ++ tail) ∧
    (∃ ws, (∀ c ∈ ws, isWS c = true) ∧
      (groupBuffers (unitsOf t)).flatten ++ ws = (unitsOf t).flatten) ∧
    (sentUnits t = [] → unitsOf t = [t]) ∧
    chunkTexts t = (groupBuffers (unitsOf t)).map jsTrim :=
  ⟨sentUnits_decomp t, groupBuffers_flatten _, fun h => by simp [unitsOf, h], rfl⟩

/-- Counterexample for C2: on `"Hi. Bye"` the segmenter emits the single chunk
`"Hi."`; the trailing unit `"Bye"` (no terminator) is dropped, not flushed as
a final chunk — no chunk contains the letter `B`. -/
theorem c2_counterexample :
    chunkTexts "Hi. Bye".data = ["Hi.".data] ∧
    ('B' ∈ "Hi. Bye".data) ∧ (∀ c ∈ chunkTexts "Hi. Bye".data, 'B' ∉ c) :=
  ⟨by decide, by decide, by decide⟩

/-- Witness for C2's amended theorem: `"x"` has no terminator, the regex finds
no unit, and the whole text becomes the single unit. -/
theorem c2_segmenter_witness :
    sentUnits "x".data = [] ∧ unitsOf "x".data = ["x".data] :=
  ⟨by decide, (c2_segmenter "x".data).2.2.1 (by decide)⟩

/-! ### Chunk length bound (C5) -/

theorem gfold_bound (S : List (List Char)) : ∀ (us : List (List Char)),
    (∀ u ∈ us, u ∈ S) → ∀ (acc : List (List Char)) (cur : List Char),
    (∀ b ∈ acc, b.length < CHUNK_SIZE_LIMIT ∨ b ∈ S) →
    (cur.length < CHUNK_SIZE_LIMIT ∨ cur ∈ S) →
    (∀ b ∈ (us.foldl gstep (acc, cur)).1, b.length < CHUNK_SIZE_LIMIT ∨ b ∈ S) ∧
    ((us.foldl gstep (acc, cur)).2.length < CHUNK_SIZE_LIMIT ∨
      (us.foldl gstep (acc, cur)).2 ∈ S) := by
  intro us
  induction us with
  | nil => intro _ acc cur hacc hcur; exact ⟨hacc, hcur⟩
  | cons u us ih =>
    intro hus acc cur hacc hcur
    have hus2 : ∀ v ∈ us, v ∈ S := fun v hv => hus v (List.mem_cons_of_mem _ hv)
    rw [List.foldl_cons]
    by_cases h : cur.length + u.length < CHUNK_SIZE_LIMIT
    · rw [show gstep (acc, cur) u = (acc, cur ++ u) from by simp [gstep, h]]
      exact ih hus2 acc (cur ++ u) hacc (Or.inl (by simpa using h))
    · rw [show gstep (acc, cur) u = (acc ++ [cur], u) from by simp [gstep, h]]
      refine ih hus2 (acc ++ [cur]) u ?_ (Or.inr (hus u (List.mem_cons_self u us)))
      intro b hb
      rcases List.mem_append.mp hb with h1 | h1
      · exact hacc b h1
      · exact (List.mem_singleton.mp h1) ▸ hcur

/-- C5 (amended): every emitted chunk text is either strictly under the
200-character limit or the trim of a single unit; equivalently a chunk built
by accumulating more than one unit always stays under the limit, while a
chunk holding one oversized unit is bounded only by that unit's length — the
claimed 2× cap does not hold (see the counterexample). -/
theorem c5_chunk_bound (t : List Char) (c : List Char) (hc : c ∈ chunkTexts t) :
    c.length < CHUNK_SIZE_LIMIT ∨ ∃ u ∈ unitsOf t, c = jsTrim u := by
  unfold chunkTexts at hc
  rw [List.mem_map] at hc
  obtain ⟨b, hb, rfl⟩ := hc
  have hbase := gfold_bound (unitsOf t) (unitsOf t) (fun u hu => hu) [] []
    (by simp) (Or.inl (by simp [CHUNK_SIZE_LIMIT]))
  have hbb : b.length < CHUNK_SIZE_LIMIT ∨ b ∈ unitsOf t := by
    unfold groupBuffers at hb
    by_cases h : jsTrim (((unitsOf t).foldl gstep ([], []))).2 = []
    · rw [if_pos h] at hb
      exact hbase.1 b hb
    · rw [if_neg h] at hb
      rcases List.mem_append.mp hb with h1 | h1
      · exact hbase.1 b h1
      · exact (List.mem_singleton.mp h1) ▸ hbase.2
  rcases hbb with h1 | h1
  · exact Or.inl (lt_of_le_of_lt (jsTrim_length_le b) h1)
  · exact Or.inr ⟨b, h1, rfl⟩

set_option maxRecDepth 8000 in
/-- Counterexample for C5: a single sentence of 402 characters becomes a
402-character chunk, exceeding 2 × 200. -/
theorem c5_counterexample :
    (chunkTexts longUnitText).any (fun c => 2 * CHUNK_SIZE_LIMIT < c.length) = true := by
  decide

/-- Witness for C5's amended theorem at the one-chunk text `"Hi."`. -/
theorem c5_chunk_bound_witness :
    ("Hi.".data ∈ chunkTexts "Hi.".data) ∧
    ("Hi.".data.length < CHUNK_SIZE_LIMIT ∨
      ∃ u ∈ unitsOf "Hi.".data, "Hi.".data = jsTrim u) :=
  ⟨by decide, c5_chunk_bound "Hi.".data "Hi.".data (by decide)⟩

/-! ### The 450-character scenario (C3) -/

theorem foldl_nonterm (ns : List Char) : ∀ (st : MState), st.sawTerm = false →
    (∀ c ∈ ns, isTerm c = false) →
    ns.foldl mstep st = ⟨ns.reverse ++ st.cur, false, st.acc⟩ := by
  induction ns with
  | nil =>
    intro st h _
    cases st
    simp_all
  | cons c cs ih =>
    intro st h hns
    rw [List.foldl_cons]
    have hc : isTerm c = false := hns c (List.mem_cons_self c cs)
    rw [show mstep st c = { st with cur := c :: st.cur } from by simp [mstep, hc, h]]
    rw [ih _ (by simpa using h) (fun d hd => hns d (List.mem_cons_of_mem _ hd))]
    simp

theorem foldl_after_term (ns : List Char) (st : MState) (h : st.sawTerm = true)
    (hns : ∀ c ∈ ns, isTerm c = false) (hne : ns ≠ []) :
    ns.foldl mstep st = ⟨ns.reverse, false, st.cur.reverse :: st.acc⟩ := by
  cases ns with
  | nil => exact absurd rfl hne
  | cons c cs =>
    rw [List.foldl_cons]
    have hc : isTerm c = false := hns c (List.mem_cons_self c cs)
    rw [show mstep st c = ⟨[c], false, st.cur.reverse :: st.acc⟩ from by
      simp [mstep, hc, h]]
    rw [foldl_nonterm cs _ rfl (fun d hd => hns d (List.mem_cons_of_mem _ hd))]
    simp

theorem sentUnits_two (s1 s2 s3 : List Char)
    (h1 : s1 ≠ []) (h2 : s2 ≠ []) (h3 : s3 ≠ [])
    (hterm : ∀ c ∈ s1 ++ s2 ++ s3, isTerm c = false) :
    sentUnits (s1 ++ ['.'] ++ s2 ++ ['.'] ++ s3) = [s1 ++ ['.'], s2 ++ ['.']] := by
  have ht1 : ∀ c ∈ s1, isTerm c = false := fun c hc =>
    hterm c (List.mem_append_left _ (List.mem_append_left _ hc))
  have ht2 : ∀ c ∈ s2, isTerm c = false := fun c hc =>
    hterm c (List.mem_append_left _ (List.mem_append_right _ hc))
  have ht3 : ∀ c ∈ s3, isTerm c = false := fun c hc =>
    hterm c (List.mem_append_right _ hc)
  unfold sentUnits
  rw [List.foldl_append, List.foldl_append, List.foldl_append, List.foldl_append]
  rw [foldl_nonterm s1 ⟨[], false, []⟩ rfl ht1]
  rw [show List.foldl mstep ⟨s1.reverse ++ [], false, []⟩ ['.'] =
      ⟨'.' :: (s1.reverse ++ []), true, []⟩ from by
    simp [mstep, isTerm, h1]]
  rw [foldl_after_term s2 _ rfl ht2 h2]
  rw [show List.foldl mstep ⟨s2.reverse, false,
        [('.' :: (s1.reverse ++ [])).reverse]⟩ ['.'] =
      ⟨'.' :: s2.reverse, true, [('.' :: (s1.reverse ++ [])).reverse]⟩ from by
    simp [mstep, isTerm, h2]]
  rw [foldl_after_term s3 _ rfl ht3 h3]
  simp [finishM, List.reverse_cons]

/-- C3 (amended): for 450-character inputs made of a 179-character run, a
terminator at position 180, a 179-character run, a terminator at position 360,
and a trailing 90-character run with no terminator, segmentation under the
200-character limit yields exactly 2 chunks — the two terminator-ended
sentences, each of 180 ≤ 200 characters — not 3: the trailing 90-character
remainder has no terminator and is dropped by the regex match, never flushed. -/
theorem c3_scenario (s1 s2 s3 : List Char)
    (h1 : s1.length = 179) (h2 : s2.length = 179) (h3 : s3.length = 90)
    (hterm : ∀ c ∈ s1 ++ s2 ++ s3, isTerm c = false)
    (hws : ∀ c ∈ s1 ++ s2 ++ s3, isWS c = false) :
    chunkTexts (s1 ++ ['.'] ++ s2 ++ ['.'] ++ s3) = [s1 ++ ['.'], s2 ++ ['.']] ∧
    (chunkTexts (s1 ++ ['.'] ++ s2 ++ ['.'] ++ s3)).length = 2 ∧
    ∀ c ∈ chunkTexts (s1 ++ ['.'] ++ s2 ++ ['.'] ++ s3),
      c.length ≤ CHUNK_SIZE_LIMIT := by
  have hne1 : s1 ≠ [] := by intro h; rw [h] at h1; simp at h1
  have hne2 : s2 ≠ [] := by intro h; rw [h] at h2; simp at h2
  have hne3 : s3 ≠ [] := by intro h; rw [h] at h3; simp at h3
  have hsu := sentUnits_two s1 s2 s3 hne1 hne2 hne3 hterm
  have hu : unitsOf (s1 ++ ['.'] ++ s2 ++ ['.'] ++ s3) =
      [s1 ++ ['.'], s2 ++ ['.']] := by
    rw [unitsOf, hsu]
    simp
  have hws1 : ∀ c ∈ s1 ++ ['.'], isWS c = false := by
    intro c hc
    rcases List.mem_append.mp hc with hx | hx
    · exact hws c (List.mem_append_left _ (List.mem_append_left _ hx))
    · rw [List.mem_singleton.mp hx]; rfl
  have hws2 : ∀ c ∈ s2 ++ ['.'], isWS c = false := by
    intro c hc
    rcases List.mem_append.mp hc with hx | hx
    · exact hws c (List.mem_append_left _ (List.mem_append_right _ hx))
    · rw [List.mem_singleton.mp hx]; rfl
  have hlen1 : (s1 ++ ['.']).length = 180 := by simp [h1]
  have hlen2 : (s2 ++ ['.']).length = 180 := by simp [h2]
  have hgb : groupBuffers [s1 ++ ['.'], s2 ++ ['.']] =
      [s1 ++ ['.'], s2 ++ ['.']] := by
    unfold groupBuffers
    rw [List.foldl_cons, List.foldl_cons, List.foldl_nil]
    rw [show gstep ([], []) (s1 ++ ['.']) = ([], [] ++ (s1 ++ ['.'])) from by
      simp [gstep, CHUNK_SIZE_LIMIT, hlen1]]
    rw [show gstep ([], [] ++ (s1 ++ ['.'])) (s2 ++ ['.']) =
        ([[] ++ (s1 ++ ['.'])], s2 ++ ['.']) from by
      simp [gstep, CHUNK_SIZE_LIMIT, h1, h2]]
    rw [if_neg (by rw [jsTrim_of_no_ws _ hws2]; simp [hne2])]
    simp
  have hct : chunkTexts (s1 ++ ['.'] ++ s2 ++ ['.'] ++ s3) =
      [s1 ++ ['.'], s2 ++ ['.']] := by
    unfold chunkTexts
    rw [hu, hgb]
    simp [jsTrim_of_no_ws _ hws1, jsTrim_of_no_ws _ hws2]
  refine ⟨hct, by rw [hct]; rfl, ?_⟩
  intro c hc
  rw [hct] at hc
  rcases List.mem_cons.mp hc with hx | hx
  · rw [hx, hlen1]; norm_num [CHUNK_SIZE_LIMIT]
  · rw [List.mem_singleton.mp hx, hlen2]; norm_num [CHUNK_SIZE_LIMIT]

set_option maxRecDepth 8000 in
/-- Counterexample for C3: the concrete 450-character scenario text (letters
with terminators exactly at positions 180 and 360) yields 2 chunks, not the
claimed 3. -/
theorem c3_counterexample :
    (chunkTexts scenarioText).length = 2 ∧ (chunkTexts scenarioText).length ≠ 3 :=
  ⟨by decide, by decide⟩

set_option maxRecDepth 8000 in
/-- Witness for C3's amended theorem at the concrete scenario text. -/
theorem c3_scenario_witness :
    chunkTexts scenarioText =
      [List.replicate 179 'a' ++ ['.'], List.replicate 179 'b' ++ ['.']] :=
  (c3_scenario (List.replicate 179 'a') (List.replicate 179 'b')
    (List.replicate 90 'c') (by simp) (by simp) (by simp)
    (by decide) (by decide)).1

/-! ### Session model: basic lemmas -/

theorem updAt_length : ∀ (l : List Chunk) (i : Nat) (f : Chunk → Chunk),
    (updAt l i f).length = l.length
  | [], _, _ => rfl
  | _ :: _, 0, _ => rfl
  | _ :: cs, i + 1, f => by simp [updAt, updAt_length cs i f]

theorem updAt_eq_nil_iff (l : List Chunk) (i : Nat) (f : Chunk → Chunk) :
    updAt l i f = [] ↔ l = [] := by
  cases l with
  | nil => simp [updAt]
  | cons c cs => cases i <;> simp [updAt]

theorem scanMark_source (s : Session) : (scanMark s).source = s.source := by
  unfold scanMark
  split <;> rfl

theorem loadFinish_source (s : Session) (i capIdx : Nat) (res : Option AudioBuffer) :
    (loadFinish s i capIdx res).source = s.source := by
  unfold loadFinish
  split
  · split <;> rfl
  · rfl

theorem chunkEnd_source (s : Session) (cap : Captured) :
    (chunkEnd s cap).source = none := by
  unfold chunkEnd
  split <;> rfl

theorem findTargetAux_some : ∀ (l : List Chunk) (k cur j : Nat),
    findTargetAux l k cur = some j →
    ∃ c, l.get? (j - k) = some c ∧ c.status = Status.pending ∧ cur ≤ j ∧ k ≤ j := by
  intro l
  induction l with
  | nil => intro k cur j h; simp [findTargetAux] at h
  | cons d ds ih =>
    intro k cur j h
    unfold findTargetAux at h
    by_cases hc : cur ≤ k ∧ d.status = Status.pending
    · rw [if_pos hc] at h
      obtain rfl : k = j := by injection h
      exact ⟨d, by simp, hc.2, hc.1, Nat.le_refl _⟩
    · rw [if_neg hc] at h
      obtain ⟨c, hget, hp, hcur, hk⟩ := ih (k + 1) cur j h
      refine ⟨c, ?_, hp, hcur, by omega⟩
      rw [show j - k = (j - (k + 1)) + 1 from by omega]
      simpa using hget

theorem findTarget_some (chunks : List Chunk) (cur i : Nat)
    (h : findTarget chunks cur = some i) :
    ∃ c, chunks.get? i = some c ∧ c.status = Status.pending := by
  obtain ⟨c, hget, hp, _, _⟩ := findTargetAux_some chunks 0 cur i h
  exact ⟨c, by simpa using hget, hp⟩

theorem countLoading_updAt : ∀ (l : List Chunk) (i : Nat) (c : Chunk),
    l.get? i = some c → c.status = Status.pending →
    countLoading (updAt l i (fun x => { x with status := Status.loading })) =
      countLoading l + 1 := by
  intro l
  induction l with
  | nil => intro i c h _; simp at h
  | cons d ds ih =>
    intro i c h hp
    cases i with
    | zero =>
      obtain rfl : d = c := by simpa using h
      simp [updAt, countLoading, List.filter_cons, hp]
    | succ n =>
      have hih := ih n c (by simpa using h) hp
      unfold countLoading at hih ⊢
      rw [show updAt (d :: ds) (n + 1) (fun x => { x with status := Status.loading }) =
          d :: updAt ds n (fun x => { x with status := Status.loading }) from rfl]
      rw [List.filter_cons, List.filter_cons]
      by_cases hd : d.status = Status.loading
      · simp [hd]
        omega
      · simp [hd]
        omega

/-! ### Session invariant (C7) -/

theorem invS_of_fields {s sp : Session} (h : InvS s)
    (hc : sp.chunks = s.chunks ∨ ∃ i f, sp.chunks = updAt s.chunks i f)
    (hidx : sp.currentChunkIdx = s.currentChunkIdx)
    (hsrc : sp.source = s.source) : InvS sp := by
  obtain ⟨h1, h2⟩ := h
  have hlen : sp.chunks.length = s.chunks.length := by
    rcases hc with h3 | ⟨i, f, h3⟩
    · rw [h3]
    · rw [h3, updAt_length]
  have hnil : sp.chunks ≠ [] ↔ s.chunks ≠ [] := by
    rcases hc with h3 | ⟨i, f, h3⟩
    · rw [h3]
    · rw [h3]
      exact not_congr (updAt_eq_nil_iff _ _ _)
  constructor
  · intro hne
    rw [hidx, hlen]
    exact h1 (hnil.mp hne)
  · intro cap hcap
    rw [hsrc] at hcap
    obtain ⟨ha, hb, hc2⟩ := h2 cap hcap
    exact ⟨by rw [hidx]; exact ha, by rw [hlen]; exact hb, hnil.mpr hc2⟩

theorem step_inv_or_stale {s sp : Session} (hs : Step s sp) (h : InvS s) :
    InvS sp ∨ ∃ cap, s.pendingEnded = some cap ∧ sp = staleEnd s cap := by
  obtain ⟨h1, h2⟩ := h
  cases hs with
  | stale cap hpend => exact Or.inr ⟨cap, hpend, rfl⟩
  | text t =>
    refine Or.inl ?_
    by_cases ht : t = []
    · simpa [textArrive, ht] using And.intro h1 h2
    · constructor
      · intro hne
        simp only [textArrive, if_neg ht] at hne ⊢
        exact List.length_pos.mpr hne
      · intro cap hcap
        simp [textArrive, ht] at hcap
  | load =>
    refine Or.inl ?_
    unfold scanMark
    split
    · exact ⟨h1, h2⟩
    · exact invS_of_fields ⟨h1, h2⟩ (Or.inr ⟨_, _, rfl⟩) rfl rfl
  | finish i capIdx res =>
    refine Or.inl ?_
    unfold loadFinish
    split
    · split
      all_goals first
        | exact invS_of_fields ⟨h1, h2⟩ (Or.inr ⟨_, _, rfl⟩) rfl rfl
        | exact ⟨h1, h2⟩
    · exact invS_of_fields ⟨h1, h2⟩ (Or.inr ⟨_, _, rfl⟩) rfl rfl
  | play resumeOk hp hr =>
    refine Or.inl ?_
    unfold playStep
    split
    · exact ⟨h1, h2⟩
    · split
      · exact ⟨h1, h2⟩
      · exact ⟨h1, h2⟩
    · split
      · exact ⟨h1, h2⟩
      · rename_i c hget
        split
        · exact ⟨h1, h2⟩
        · split
          · exact ⟨h1, h2⟩
          · constructor
            · exact h1
            · intro cap hcap
              simp only [Option.some.injEq] at hcap
              subst hcap
              have hlt : s.currentChunkIdx < s.chunks.length :=
                (List.get?_eq_some.mp hget).1
              refine ⟨rfl, rfl, ?_⟩
              intro hnil
              rw [hnil] at hlt
              simp at hlt
  | ended cap hsrc hp =>
    refine Or.inl ?_
    obtain ⟨hidx, hlen, hne⟩ := h2 cap hsrc
    unfold chunkEnd
    split
    · rename_i hguard
      constructor
      · intro _
        show s.currentChunkIdx + 1 < s.chunks.length
        omega
      · intro cap2 hcap2
        simp at hcap2
    · constructor
      · intro _
        show 0 < s.chunks.length
        exact List.length_pos.mpr hne
      · intro cap2 hcap2
        simp at hcap2
  | pause ok =>
    refine Or.inl ?_
    unfold handlePause
    split
    · split
      · exact ⟨h1, h2⟩
      · exact ⟨h1, h2⟩
    · exact ⟨h1, h2⟩
  | resume ok =>
    refine Or.inl ?_
    unfold handleResume
    split
    · split
      · exact ⟨h1, h2⟩
      · exact ⟨h1, h2⟩
    · exact ⟨h1, h2⟩
  | retry =>
    exact Or.inl ⟨h1, h2⟩

theorem invW_of_fields {s sp : Session} (h : InvW s)
    (hc : sp.chunks = s.chunks ∨ ∃ i f, sp.chunks = updAt s.chunks i f)
    (hidx : sp.currentChunkIdx = s.currentChunkIdx)
    (hsrc : sp.source = s.source)
    (hpend : sp.pendingEnded = s.pendingEnded) : InvW sp := by
  obtain ⟨h1, h2, h3⟩ := h
  have hlen : sp.chunks.length = s.chunks.length := by
    rcases hc with h4 | ⟨i, f, h4⟩
    · rw [h4]
    · rw [h4, updAt_length]
  have hnil : sp.chunks ≠ [] ↔ s.chunks ≠ [] := by
    rcases hc with h4 | ⟨i, f, h4⟩
    · rw [h4]
    · rw [h4]
      exact not_congr (updAt_eq_nil_iff _ _ _)
  refine ⟨?_, ?_, ?_⟩
  · intro hne
    rw [hidx, hlen]
    exact h1 (hnil.mp hne)
  · intro cap hcap hne
    rw [hidx, hlen]
    rw [hpend] at hcap
    exact h2 cap hcap (hnil.mp hne)
  · intro cap hcap
    rw [hsrc] at hcap
    obtain ⟨ha, hb, hc2⟩ := h3 cap hcap
    exact ⟨by rw [hidx]; exact ha, by rw [hlen]; exact hb,
      by rw [hidx, hlen]; exact hc2⟩

theorem step_invW {s sp : Session} (hs : Step s sp) (h : InvW s) : InvW sp := by
  obtain ⟨h1, h2, h3⟩ := h
  cases hs with
  | text t =>
    by_cases ht : t = []
    · simpa [textArrive, ht] using And.intro h1 (And.intro h2 h3)
    · refine ⟨?_, ?_, ?_⟩
      · intro _
        simp [textArrive, ht]
      · intro cap hcap hne
        simp only [textArrive, if_neg ht] at hne ⊢
        exact List.length_pos.mpr hne
      · intro cap hcap
        simp [textArrive, ht] at hcap
  | load =>
    unfold scanMark
    split
    · exact ⟨h1, h2, h3⟩
    · exact invW_of_fields ⟨h1, h2, h3⟩ (Or.inr ⟨_, _, rfl⟩) rfl rfl rfl
  | finish i capIdx res =>
    unfold loadFinish
    split
    · split
      all_goals first
        | exact invW_of_fields ⟨h1, h2, h3⟩ (Or.inr ⟨_, _, rfl⟩) rfl rfl rfl
        | exact ⟨h1, h2, h3⟩
    · exact invW_of_fields ⟨h1, h2, h3⟩ (Or.inr ⟨_, _, rfl⟩) rfl rfl rfl
  | play resumeOk hp hr =>
    unfold playStep
    split
    · exact ⟨h1, h2, h3⟩
    · split
      · exact ⟨h1, h2, h3⟩
      · exact ⟨h1, h2, h3⟩
    · split
      · exact ⟨h1, h2, h3⟩
      · rename_i c hget
        split
        · exact ⟨h1, h2, h3⟩
        · split
          · exact ⟨h1, h2, h3⟩
          · refine ⟨h1, h2, ?_⟩
            intro cap hcap
            simp only [Option.some.injEq] at hcap
            subst hcap
            exact ⟨rfl, rfl, (List.get?_eq_some.mp hget).1⟩
  | ended cap hsrc hp =>
    obtain ⟨hidx, hlen, hlt⟩ := h3 cap hsrc
    unfold chunkEnd
    split
    · rename_i hguard
      refine ⟨?_, ?_, ?_⟩
      · intro _
        show s.currentChunkIdx + 1 ≤ s.chunks.length
        omega
      · intro cap2 _ _
        show s.currentChunkIdx + 1 < s.chunks.length
        omega
      · intro cap2 hcap2
        simp at hcap2
    · refine ⟨?_, ?_, ?_⟩
      · intro _
        show 0 ≤ s.chunks.length
        omega
      · intro cap2 _ hne
        show 0 < s.chunks.length
        exact List.length_pos.mpr hne
      · intro cap2 hcap2
        simp at hcap2
  | stale cap hpend =>
    have hlt := h2 cap hpend
    unfold staleEnd chunkEnd
    by_cases hg : (cap.idx : Int) < (cap.chunks.length : Int) - 1
    · rw [if_pos hg]
      refine ⟨?_, ?_, ?_⟩
      · intro hne
        have hx := hlt hne
        show s.currentChunkIdx + 1 ≤ s.chunks.length
        omega
      · intro cap2 hcap2
        simp at hcap2
      · intro cap2 hcap2
        simp at hcap2
    · rw [if_neg hg]
      refine ⟨?_, ?_, ?_⟩
      · intro _
        show 0 ≤ s.chunks.length
        omega
      · intro cap2 hcap2
        simp at hcap2
      · intro cap2 hcap2
        simp at hcap2
  | pause ok =>
    unfold handlePause
    split
    · split
      · exact ⟨h1, h2, h3⟩
      · exact ⟨h1, h2, h3⟩
    · exact ⟨h1, h2, h3⟩
  | resume ok =>
    unfold handleResume
    split
    · split
      · exact ⟨h1, h2, h3⟩
      · exact ⟨h1, h2, h3⟩
    · exact ⟨h1, h2, h3⟩
  | retry =>
    exact ⟨h1, h2, h3⟩

theorem reachable_invW (s : Session) (h : Reachable s) : InvW s := by
  induction h with
  | init =>
    refine ⟨?_, ?_, ?_⟩
    · intro hne
      simp [initSession] at hne
    · intro cap hcap
      simp [initSession] at hcap
    · intro cap hcap
      simp [initSession] at hcap
  | step _ hs ih => exact step_invW hs ih

set_option maxRecDepth 8000 in
/-- Counterexample for C7: while chunk 0 of a two-chunk session is playing,
the text changes to a one-sentence note. `cleanupAudio` stops the active
source with its `onended` handler still attached, the new effect installs the
fresh single-chunk list with `currentChunkIdx = 0`, and then the stopped
source's `ended` event fires: its guard consults the captured two-chunk
snapshot (`0 < 2 - 1` passes) and `setCurrentChunkIdx(prev => prev + 1)`
bumps the fresh index to 1 — equal to the new chunk count, so the claimed
invariant `currentIndex ∈ [0, len(chunks))` is violated on a reachable state
with non-empty chunks. -/
theorem c7_counterexample :
    Reachable s7x ∧ s7x.chunks ≠ [] ∧
    s7x.currentChunkIdx = s7x.chunks.length ∧
    ¬ s7x.currentChunkIdx < s7x.chunks.length :=
  ⟨Reachable.step (Reachable.step (Reachable.step (Reachable.step (Reachable.step
      (Reachable.step Reachable.init
        (Step.text initSession twoSentText))
        (Step.load sA))
        (Step.finish sB 0 0 (some bufA)))
        (Step.play s6c true (by decide) (by decide)))
        (Step.text s6d hiDot))
        (Step.stale s7w cap6 (by decide)),
    by decide, by decide, by decide⟩

/-- C7 (amended): on every reachable state `currentIndex` never exceeds
`len(chunks)` (it can reach exactly `len(chunks)` — see the counterexample);
every session operation — text arrival, loader scan and completion, play,
natural chunk end, pause, resume, retry — preserves the claimed invariant
(index strictly in range while chunks are non-empty, with an active source's
snapshot agreeing with the live state), the sole exception being the firing
of the `ended` event of a source that a text change stopped with its handler
still attached; and the source half of the claim holds unconditionally: no
step ever replaces an active audio source by a new one, a source being
constructed only when none is active. -/
theorem c7_amended :
    (∀ s : Session, Reachable s → s.chunks ≠ [] →
      s.currentChunkIdx ≤ s.chunks.length) ∧
    (∀ s sp : Session, Step s sp → InvS s →
      InvS sp ∨ ∃ cap, s.pendingEnded = some cap ∧ sp = staleEnd s cap) ∧
    (∀ s sp : Session, Step s sp → s.source.isSome = true →
      sp.source.isSome = true → sp.source = s.source) := by
  refine ⟨?_, ?_, ?_⟩
  · intro s hr hne
    exact (reachable_invW s hr).1 hne
  · intro s sp hs hinv
    exact step_inv_or_stale hs hinv
  · intro s sp hs hsome hsomep
    cases hs with
    | text t =>
      by_cases ht : t = []
      · simp [textArrive, ht]
      · rw [textArrive, if_neg ht] at hsomep
        simp at hsomep
    | load => exact scanMark_source s
    | finish i capIdx res => exact loadFinish_source s i capIdx res
    | play resumeOk hp hr =>
      unfold playStep
      split
      · rfl
      · split
        · rfl
        · rfl
      · split
        · rfl
        · split
          · rfl
          · split
            · rfl
            · rename_i hnone
              exact absurd hsome (by simpa using hnone)
    | ended cap hsrc hp =>
      rw [chunkEnd_source] at hsomep
      simp at hsomep
    | stale cap hpend =>
      have hnone : (staleEnd s cap).source = none := by
        show (chunkEnd s cap).source = none
        exact chunkEnd_source s cap
      rw [hnone] at hsomep
      simp at hsomep
    | pause ok =>
      unfold handlePause
      split
      · split
        · rfl
        · rfl
      · rfl
    | resume ok =>
      unfold handleResume
      split
      · split
        · rfl
        · rfl
      · rfl
    | retry => rfl

set_option maxRecDepth 8000 in
/-- Witness for C7's amended theorem: a reachable in-range state, a concrete
non-stale step preserving the invariant, and a concrete step keeping the
active source. -/
theorem c7_amended_witness :
    (s4a.chunks ≠ [] ∧ s4a.currentChunkIdx ≤ s4a.chunks.length) ∧
    (InvS (handlePause sPauseW false) ∨ ∃ cap, sPauseW.pendingEnded = some cap ∧
      handlePause sPauseW false = staleEnd sPauseW cap) ∧
    (handlePause s6d false).source = s6d.source :=
  ⟨⟨by decide, c7_amended.1 s4a
      (Reachable.step Reachable.init (Step.text initSession hiDot)) (by decide)⟩,
    c7_amended.2.1 sPauseW (handlePause sPauseW false) (Step.pause sPauseW false)
      ⟨fun _ => by decide, fun cap hcap => by simp [sPauseW] at hcap⟩,
    c7_amended.2.2 s6d (handlePause s6d false) (Step.pause s6d false)
      (by decide) (by decide)⟩

/-! ### Loader serialization (C1) -/

/-- C1 (amended): a single invocation of the loader's scan marks at most one
chunk `Loading` — the first `Pending` chunk at or after `currentIndex`, whose
status alone changes — but the scan is not serialized across invocations: the
effect re-runs on every `chunks` update (in particular on the update that
marked a chunk `Loading`) while the previous fetch is still awaited, so
successive invocations put several chunks in `Loading` simultaneously and
prefetch depth is not bounded to one chunk ahead (see the counterexample). -/
theorem c1_scan_marks_one (s : Session) :
    scanMark s = s ∨
    ∃ i, (s.chunks.get? i).map Chunk.status = some Status.pending ∧
      (scanMark s).chunks =
        updAt s.chunks i (fun c => { c with status := Status.loading }) ∧
      countLoading (scanMark s).chunks = countLoading s.chunks + 1 := by
  unfold scanMark
  cases hft : findTarget s.chunks s.currentChunkIdx with
  | none => exact Or.inl rfl
  | some i =>
    obtain ⟨c, hget, hp⟩ := findTarget_some s.chunks s.currentChunkIdx i hft
    refine Or.inr ⟨i, by rw [hget]; simp [hp], rfl, ?_⟩
    show countLoading (updAt s.chunks i (fun c => { c with status := Status.loading })) =
      countLoading s.chunks + 1
    exact countLoading_updAt s.chunks i c hget hp

set_option maxRecDepth 8000 in
/-- Counterexample for C1: from the freshly arrived two-sentence text, the
loader effect runs and marks chunk 0 `Loading`; that `setChunks` re-triggers
the effect, which runs again while chunk 0's fetch is still in flight and
marks chunk 1 `Loading`. The reachable state `sC` has two chunks in `Loading`
status simultaneously, refuting the claimed bound of at most one. -/
theorem c1_counterexample :
    Reachable sC ∧ countLoading sC.chunks = 2 :=
  ⟨Reachable.step (Reachable.step (Reachable.step Reachable.init
      (Step.text initSession twoSentText)) (Step.load sA)) (Step.load sB),
    by decide⟩

/-! ### Retry does not retry (C4) -/

/-- C4 (code bug): with the single chunk in `Error` status at `currentIndex`
and `loadingError` set (so the UI shows the Retry button), clicking Retry
only sets `playbackState` to `'playing'`: every chunk status is untouched,
the chunk stays `Error`, the loader's scan — which selects only `'pending'`
chunks — finds no target, and re-running the loader leaves the state fixed.
The failing chunk is never re-attempted, although the button is labelled
"Retry" and the spec requires its status to return to `Pending`. -/
theorem c4_retry_noop :
    Reachable s4d ∧
    s4d.playbackState = PBState.playing ∧
    s4d.chunks = s4c.chunks ∧
    s4d.loadingError = true ∧
    s4d.chunks.map Chunk.status = [Status.error] ∧
    findTarget s4d.chunks s4d.currentChunkIdx = none ∧
    scanMark s4d = s4d :=
  ⟨Reachable.step (Reachable.step (Reachable.step (Reachable.step Reachable.init
      (Step.text initSession hiDot)) (Step.load s4a))
      (Step.finish s4b 0 0 none)) (Step.retry s4c),
    by decide, by decide, by decide, by decide, by decide, by decide⟩

/-! ### Chunk-end advance (C6) -/

/-- C6 (amended): on the natural end of a chunk's audio, when the captured
snapshot agrees with the live index and chunk count (which holds on every
reachable state, see C7's invariant), the controller increments
`currentIndex` by exactly one and — at the last chunk — transitions to
`Stopped` resetting `currentIndex` to 0, so chunks play in strict index
order; but `readyToPlay` is set to whether the new current chunk had a buffer
in the snapshot captured when the ending chunk's source was created, not in
the live chunk sequence: a buffer that arrived during that chunk's playback
is not seen (see the counterexample). -/
theorem c6_chunk_end (s : Session) (cap : Captured)
    (hidx : cap.idx = s.currentChunkIdx)
    (hlen : cap.chunks.length = s.chunks.length) :
    (s.currentChunkIdx + 1 < s.chunks.length →
      (chunkEnd s cap).currentChunkIdx = s.currentChunkIdx + 1 ∧
      (chunkEnd s cap).playbackState = s.playbackState ∧
      (chunkEnd s cap).chunks = s.chunks ∧
      (chunkEnd s cap).source = none ∧
      (chunkEnd s cap).isReadyToPlay =
        ((cap.chunks.get? (s.currentChunkIdx + 1)).bind Chunk.buffer).isSome) ∧
    (¬ s.currentChunkIdx + 1 < s.chunks.length →
      (chunkEnd s cap).playbackState = PBState.stopped ∧
      (chunkEnd s cap).currentChunkIdx = 0 ∧
      (chunkEnd s cap).chunks = s.chunks ∧
      (chunkEnd s cap).source = none) := by
  unfold chunkEnd
  constructor
  · intro hlt
    rw [if_pos (show (cap.idx : Int) < (cap.chunks.length : Int) - 1 by omega)]
    exact ⟨rfl, rfl, rfl, rfl, by rw [hidx]⟩
  · intro hge
    rw [if_neg (show ¬ (cap.idx : Int) < (cap.chunks.length : Int) - 1 by omega)]
    exact ⟨rfl, rfl, rfl, rfl⟩

set_option maxRecDepth 8000 in
/-- Counterexample for C6: chunk 1's buffer arrives while chunk 0 is playing.
At chunk 0's natural end, the live chunk 1 is `Ready` with a buffer, yet
`readyToPlay` is set to `false` because the `onended` closure consults the
chunk array captured at source-creation time, in which chunk 1 had no buffer
— not "whether the new current chunk already has a buffer". -/
theorem c6_counterexample :
    Reachable s6g ∧ s6g.isReadyToPlay = false ∧
    ((s6g.chunks.get? s6g.currentChunkIdx).bind Chunk.buffer).isSome = true :=
  ⟨Reachable.step (Reachable.step (Reachable.step (Reachable.step (Reachable.step
      (Reachable.step (Reachable.step Reachable.init
        (Step.text initSession twoSentText))
        (Step.load sA))
        (Step.finish sB 0 0 (some bufA)))
        (Step.play s6c true (by decide) (by decide)))
        (Step.load s6d))
        (Step.finish s6e 1 0 (some bufA)))
        (Step.ended s6f cap6 (by decide) (by decide)),
    by decide, by decide⟩

set_option maxRecDepth 8000 in
/-- Witness for C6's amended theorem at the concrete two-chunk trace. -/
theorem c6_chunk_end_witness :
    cap6.idx = s6f.currentChunkIdx ∧ cap6.chunks.length = s6f.chunks.length ∧
    s6f.currentChunkIdx + 1 < s6f.chunks.length ∧
    (chunkEnd s6f cap6).currentChunkIdx = s6f.currentChunkIdx + 1 ∧
    (chunkEnd s6f cap6).isReadyToPlay =
      ((cap6.chunks.get? (s6f.currentChunkIdx + 1)).bind Chunk.buffer).isSome :=
  ⟨by decide, by decide, by decide,
    ((c6_chunk_end s6f cap6 (by decide) (by decide)).1 (by decide)).1,
    ((c6_chunk_end s6f cap6 (by decide) (by decide)).1 (by decide)).2.2.2.2⟩

end TtsSpec

